import Mathlib

/-!
Verification of the keyframe storage and interpolation engine of the Olive
effect-field core (`src/effects/effectfield.h` and the field subclasses).

The repository ships only the headers: `EffectField` declares `GetValueAt`,
`SetValueAt`, `PrepareDataForKeyframing`, `GetValidKeyframeHandlePosition`,
`HasKeyframes` and `GetKeyframeData`, but the translation units implementing
them are not part of the source tree.  Every operation below is therefore
modelled from the specification text (its doc comment says so and names the
missing symbol).  Times are exact rationals, as the data model requires;
values are a closed tagged union over the declared field types.
-/

namespace Olive

/-- Interpolation type of a keyframe: Linear, Bezier or Hold. -/
inductive InterpType where
  | linear
  | bezier
  | hold
deriving DecidableEq, Repr

/-- Modelled from the spec (§3, §9 *Dynamic value variant*): the dynamically
typed value holder (`QVariant`) is modelled as a closed tagged union over the
declared field-type set.  Numbers and color channels are exact rationals so
that linear blends are exact. -/
inductive Value where
  | num (x : ℚ)
  | color (r g b : ℚ)
  | str (s : String)
  | boolean (b : Bool)
deriving DecidableEq, Repr

/-- Modelled from the spec (§3 *Keyframe*): one sample of a parameter's value
over time — exact rational `time`, a `value`, an `interpolation` type and raw
(unconstrained) bezier handle offsets on the pre and post side.  The X
components are time offsets (extent measured away from the keyframe); the Y
components are value offsets used only by bezier blending. -/
structure EffectKeyframe where
  time : ℚ
  value : Value
  interpolation : InterpType
  pre_handle_x : ℚ
  pre_handle_y : ℚ
  post_handle_x : ℚ
  post_handle_y : ℚ
deriving DecidableEq, Repr

/-- The `EffectFieldType` enum of `effectfield.h` (declared type of a field). -/
inductive EffectFieldType where
  | double
  | color
  | string
  | bool
  | combo
  | font
  | file
  | ui
deriving DecidableEq, Repr

/-- Modelled from the spec (§3 *Field (Value Store)*): an animatable
parameter — a declared type fixed at construction, the persistent value
(authoritative when not keyframed), the ordered keyframe sequence
(authoritative when keyframed and non-empty) and the independent enabled
gate. -/
structure EffectField where
  fieldType : EffectFieldType
  persistent_data : Value
  keyframes : List EffectKeyframe
  enabled : Bool
deriving DecidableEq, Repr

/-- The ordering invariant of §3: keyframe times strictly ascend (hence are
unique). -/
def SortedK (ks : List EffectKeyframe) : Prop :=
  ks.Pairwise (fun a b => a.time < b.time)

instance : DecidablePred SortedK := fun ks =>
  List.instDecidablePairwise ks

/-- Modelled from the spec (§4.2 resolve, step 4): normalized progress
between two keyframes, defined to be 0 when the denominator is 0. -/
def progress (before after : EffectKeyframe) (t : ℚ) : ℚ :=
  if after.time = before.time then 0
  else (t - before.time) / (after.time - before.time)

/-- Modelled from the spec (§4.2 resolve, Linear case): linear blend for
numeric values, per-channel blend for colors; for non-numeric types Linear is
degenerate and behaves like Hold. -/
def lerp (a b : Value) (d : ℚ) : Value :=
  match a, b with
  | Value.num x, Value.num y => Value.num (x + (y - x) * d)
  | Value.color r g bl, Value.color r2 g2 b2 =>
      Value.color (r + (r2 - r) * d) (g + (g2 - g) * d) (bl + (b2 - bl) * d)
  | v, _ => v

/-- Modelled from the spec (§4.2 resolve, Bezier case): cubic-bezier
evaluation along the value axis.  The spec allows the inversion of the
time-axis cubic to be a numeric approximation; here the normalized progress
`d` is used directly as the parametric input.  Non-numeric values degenerate
to the before-value. -/
def bezierBlend (before after : EffectKeyframe) (d : ℚ) : Value :=
  match before.value, after.value with
  | Value.num x, Value.num y =>
      let p1 := x + before.post_handle_y
      let p2 := y + after.pre_handle_y
      Value.num ((1 - d) ^ 3 * x + 3 * (1 - d) ^ 2 * d * p1
        + 3 * (1 - d) * d ^ 2 * p2 + d ^ 3 * y)
  | v, _ => v

/-- Modelled from the spec (§4.2 resolve, step 5): dispatch on the before
keyframe's interpolation type for a query between two adjacent keyframes. -/
def interpPair (before after : EffectKeyframe) (t : ℚ) : Value :=
  match before.interpolation with
  | InterpType.hold => before.value
  | InterpType.linear => lerp before.value after.value (progress before after t)
  | InterpType.bezier => bezierBlend before after (progress before after t)

/-- Modelled from the spec (§4.2 resolve, step 3 / `GetKeyframeData`): scan
the adjacent pairs for the first pair whose after-time is at or past the
query time and interpolate inside it. -/
def resolveBetween (k : EffectKeyframe) : List EffectKeyframe → ℚ → Value
  | [], _ => k.value
  | nxt :: rest, t =>
      if t ≤ nxt.time then interpPair k nxt t
      else resolveBetween nxt rest t

/-- Modelled from the spec (§4.2 `resolve`): flat extrapolation at or before
the first keyframe and at or after the last, interpolation in between.
The sequence is passed as head plus tail so it is never empty. -/
def resolve (first : EffectKeyframe) (rest : List EffectKeyframe) (t : ℚ) : Value :=
  if t ≤ first.time then first.value
  else if (rest.getLastD first).time ≤ t then (rest.getLastD first).value
  else resolveBetween first rest t

/-- Modelled from the spec: `EffectField::GetValueAt` (§4.1
`get_value_at`) — persistent value when `keyframes` is empty, otherwise the
Interpolation Engine's `resolve` on the full keyframe sequence. -/
def GetValueAt (f : EffectField) (t : ℚ) : Value :=
  match f.keyframes with
  | [] => f.persistent_data
  | k :: ks => resolve k ks t

/-- Modelled from the spec: `EffectField::HasKeyframes` — whether keyframe
data (rather than persistent data) should be retrieved, i.e. whether the
keyframe sequence has at least one element. -/
def HasKeyframes (f : EffectField) : Bool :=
  !f.keyframes.isEmpty

/-- Does some keyframe carry exactly this time? -/
def hasTime (ks : List EffectKeyframe) (t : ℚ) : Bool :=
  ks.any fun k => k.time == t

/-- Modelled from the spec (§4.1 `set_value_at`, found case): replace the
value of the keyframe whose time matches exactly, in place. -/
def replaceValueAt (t : ℚ) (v : Value) : List EffectKeyframe → List EffectKeyframe
  | [] => []
  | k :: ks =>
      if k.time = t then { k with value := v } :: ks
      else k :: replaceValueAt t v ks

/-- A newly created keyframe: given time and value, interpolation type
Linear (the default for new keys), zero raw handle offsets. -/
def newLinearKeyframe (t : ℚ) (v : Value) : EffectKeyframe :=
  ⟨t, v, InterpType.linear, 0, 0, 0, 0⟩

/-- Modelled from the spec (§4.1 `set_value_at`, not-found case): insert a
keyframe preserving ascending time order. -/
def insertKeyframe (k : EffectKeyframe) : List EffectKeyframe → List EffectKeyframe
  | [] => [k]
  | x :: xs =>
      if k.time < x.time then k :: x :: xs
      else x :: insertKeyframe k xs

/-- Modelled from the spec: `EffectField::SetValueAt` (§4.1
`set_value_at`).  Returns the updated field together with a flag recording
that the `Changed` signal was emitted during the call. -/
def SetValueAt (f : EffectField) (t : ℚ) (v : Value) : EffectField × Bool :=
  if f.keyframes.isEmpty then
    ({ f with persistent_data := v }, true)
  else if hasTime f.keyframes t then
    ({ f with keyframes := replaceValueAt t v f.keyframes }, true)
  else
    ({ f with keyframes := insertKeyframe (newLinearKeyframe t v) f.keyframes }, true)

/-- Modelled from the spec: `EffectField::PrepareDataForKeyframing` (§4.1
state machine).  Enabling creates exactly one Linear keyframe at the current
time holding the persistent value; disabling stores the value at the current
time into the persistent value and then clears all keyframes. -/
def PrepareDataForKeyframing (f : EffectField) (enabled : Bool) (now : ℚ) : EffectField :=
  if enabled then
    { f with keyframes := [newLinearKeyframe now f.persistent_data] }
  else
    { f with persistent_data := GetValueAt f now, keyframes := [] }

/-- Modelled from the spec (§4.2 `valid_handle_x`): the constrained X offset
of a bezier handle.  When the combined raw extents of the post handle of
keyframe `i` and the pre handle of keyframe `i+1` exceed the gap between
them, both are scaled by the shared factor `gap / combined`; otherwise the
raw offset is returned.  Boundary keyframes are unconstrained on the side
with no neighbor. -/
def validHandleX (ks : List EffectKeyframe) (key : ℕ) (post : Bool) : ℚ :=
  match ks[key]? with
  | none => 0
  | some k =>
      if post then
        match ks[key + 1]? with
        | none => k.post_handle_x
        | some nxt =>
            if nxt.time - k.time < k.post_handle_x + nxt.pre_handle_x then
              k.post_handle_x * ((nxt.time - k.time) / (k.post_handle_x + nxt.pre_handle_x))
            else k.post_handle_x
      else
        if key = 0 then k.pre_handle_x
        else
          match ks[key - 1]? with
          | none => k.pre_handle_x
          | some prev =>
              if k.time - prev.time < prev.post_handle_x + k.pre_handle_x then
                k.pre_handle_x * ((k.time - prev.time) / (prev.post_handle_x + k.pre_handle_x))
              else k.pre_handle_x

/-- Modelled from the spec: `EffectField::GetValidKeyframeHandlePosition`.
The spec states the operation is read-only (it computes a safe value without
mutating the stored raw offsets), so the state-passing translation returns
the field unchanged alongside the constrained offset. -/
def GetValidKeyframeHandlePosition (f : EffectField) (key : ℕ) ( post : Bool) :
    EffectField × ℚ :=
  (f, validHandleX f.keyframes key post)

/-- Modelled from the spec (C3's quantification): apply a finite sequence of
`set_value_at` calls in order. -/
def applyOps (f : EffectField) : List (ℚ × Value) → EffectField
  | [] => f
  | (t, v) :: ops => applyOps (SetValueAt f t v).1 ops

/-! ### Basic lemmas about the embedding -/

theorem GetValueAt_eq (f : EffectField) (t : ℚ) :
    GetValueAt f t =
      match f.keyframes with
      | [] => f.persistent_data
      | k :: ks => resolve k ks t := rfl

theorem sortedK_tail {k : EffectKeyframe} {ks : List EffectKeyframe}
    (h : SortedK (k :: ks)) : SortedK ks :=
  (List.pairwise_cons.mp h).2

theorem sortedK_head_lt {k : EffectKeyframe} {ks : List EffectKeyframe}
    (h : SortedK (k :: ks)) : ∀ x ∈ ks, k.time < x.time :=
  (List.pairwise_cons.mp h).1

theorem head_time_le {k b : EffectKeyframe} {ks pre rest : List EffectKeyframe}
    (hs : SortedK (k :: ks)) (hd : k :: ks = pre ++ b :: rest) :
    k.time ≤ b.time := by
  cases pre with
  | nil =>
    injection hd with h1 _
    rw [h1]
  | cons p pre2 =>
    injection hd with h1 h2
    refine le_of_lt (sortedK_head_lt hs b ?_)
    rw [h2]
    exact List.mem_append.mpr (Or.inr (List.mem_cons_self _ _))

theorem lastK_mem : ∀ {ks : List EffectKeyframe} (k : EffectKeyframe),
    ks ≠ [] → ks.getLastD k ∈ ks := by
  intro ks
  induction ks with
  | nil => intro k h; exact absurd rfl h
  | cons y ys ih =>
    intro k _
    rw [List.getLastD_cons]
    rcases eq_or_ne ys [] with hy | hy
    · subst hy; simp
    · exact List.mem_cons_of_mem y (ih y hy)

theorem time_le_lastK : ∀ {k : EffectKeyframe} {ks : List EffectKeyframe},
    SortedK (k :: ks) → ∀ x ∈ k :: ks, x.time ≤ (ks.getLastD k).time := by
  intro k ks
  induction ks generalizing k with
  | nil =>
    intro _ x hx
    simp only [List.mem_singleton] at hx
    subst hx
    simp
  | cons y ys ih =>
    intro hs x hx
    rw [List.getLastD_cons]
    rcases List.mem_cons.mp hx with h | h
    · subst h
      have h1 : x.time < y.time := sortedK_head_lt hs y (List.mem_cons_self _ _)
      have h2 : y.time ≤ (ys.getLastD y).time :=
        ih (sortedK_tail hs) y (List.mem_cons_self _ _)
      exact le_of_lt (lt_of_lt_of_le h1 h2)
    · exact ih (sortedK_tail hs) x h

/-- C1: `get_value_at` is total and extrapolates flat: empty keyframes give
the persistent value; a query at or before the first keyframe gives the
first keyframe's value; a query at or after the last keyframe gives the
last keyframe's value; a single-keyframe field gives that keyframe's value
for any time. -/
theorem getValueAt_total_flat_extrapolation (f : EffectField) (t : ℚ) :
    (f.keyframes = [] → GetValueAt f t = f.persistent_data) ∧
    (∀ k ks, f.keyframes = k :: ks → t ≤ k.time → GetValueAt f t = k.value) ∧
    (∀ k ks, f.keyframes = k :: ks → SortedK f.keyframes →
      (ks.getLastD k).time ≤ t → GetValueAt f t = (ks.getLastD k).value) ∧
    (∀ k, f.keyframes = [k] → GetValueAt f t = k.value) := by
  refine ⟨?_, ?_, ?_, ?_⟩
  · intro h
    simp [GetValueAt_eq, h]
  · intro k ks hkf hle
    simp only [GetValueAt_eq, hkf]
    unfold resolve
    rw [if_pos hle]
  · intro k ks hkf hs hge
    rw [hkf] at hs
    simp only [GetValueAt_eq, hkf]
    unfold resolve
    by_cases h : t ≤ k.time
    · rw [if_pos h]
      cases hks : ks with
      | nil => simp
      | cons y ys =>
        exfalso
        have hmem : ks.getLastD k ∈ ks := lastK_mem k (by simp [hks])
        have hlt : k.time < (ks.getLastD k).time := sortedK_head_lt hs _ hmem
        exact absurd (le_trans hge h) (not_le.mpr hlt)
    · rw [if_neg h, if_pos hge]
  · intro k hkf
    simp only [GetValueAt_eq, hkf]
    unfold resolve
    split_ifs <;> simp [resolveBetween]

/-- Witness for C1: a field with the single keyframe (time 2, value 9)
returns 9 at the negative time -5. -/
theorem getValueAt_total_flat_extrapolation_witness :
    GetValueAt ⟨EffectFieldType.double, Value.num 7,
      [⟨2, Value.num 9, InterpType.linear, 0, 0, 0, 0⟩], true⟩ (-5) = Value.num 9 :=
  (getValueAt_total_flat_extrapolation
    ⟨EffectFieldType.double, Value.num 7,
      [⟨2, Value.num 9, InterpType.linear, 0, 0, 0, 0⟩], true⟩ (-5)).2.2.2
    ⟨2, Value.num 9, InterpType.linear, 0, 0, 0, 0⟩ rfl

/-- C4: enabling keyframing on a static field and then immediately
disabling it leaves `get_value_at` unchanged at every query time. -/
theorem mode_round_trip (f : EffectField) (now : ℚ) (h : f.keyframes = [])
    (t : ℚ) :
    GetValueAt (PrepareDataForKeyframing (PrepareDataForKeyframing f true now) false now) t
      = GetValueAt f t := by
  obtain ⟨ft, pv, ks, e⟩ := f
  simp only at h
  subst h
  simp [PrepareDataForKeyframing, GetValueAt_eq, resolve, newLinearKeyframe]

/-- Witness for C4: a static field holding 3, keyframing toggled on and off
at time 2, still evaluates to 3 at time -7. -/
theorem mode_round_trip_witness :
    GetValueAt (PrepareDataForKeyframing
      (PrepareDataForKeyframing
        ⟨EffectFieldType.double, Value.num 3, [], true⟩ true 2) false 2) (-7)
      = GetValueAt ⟨EffectFieldType.double, Value.num 3, [], true⟩ (-7) :=
  mode_round_trip ⟨EffectFieldType.double, Value.num 3, [], true⟩ 2 rfl (-7)

/-- C8: `valid_handle_x` is read-only — the state-passing translation of
`GetValidKeyframeHandlePosition` returns the field (its keyframes with all
raw handle offsets, and its persistent value) unchanged. -/
theorem validHandleX_read_only (f : EffectField) (key : ℕ) ( post : Bool) :
    (GetValidKeyframeHandlePosition f key post).1 = f ∧
    (GetValidKeyframeHandlePosition f key post).1.keyframes = f.keyframes ∧
    (GetValidKeyframeHandlePosition f key post).1.persistent_data = f.persistent_data :=
  ⟨rfl, rfl, rfl⟩

/-- C9: the keyframe sequence is the authoritative value source exactly when
it is non-empty, persistent data otherwise; the decision depends only on the
field's own keyframes (not on the enabled flag); and the mode is entered and
exited explicitly through the keyframing transition. -/
theorem keyframes_authoritative (f : EffectField) (t now : ℚ) :
    (HasKeyframes f = true ↔ f.keyframes ≠ []) ∧
    (∀ k ks, f.keyframes = k :: ks → GetValueAt f t = resolve k ks t) ∧
    (f.keyframes = [] → GetValueAt f t = f.persistent_data) ∧
    (∀ e, GetValueAt { f with enabled := e } t = GetValueAt f t) ∧
    HasKeyframes (PrepareDataForKeyframing f true now) = true ∧
    HasKeyframes (PrepareDataForKeyframing f false now) = false := by
  obtain ⟨ft, pv, ks, e0⟩ := f
  refine ⟨?_, ?_, ?_, ?_, ?_, ?_⟩
  · simp [HasKeyframes]
  · intro k ks2 hkf
    simp only at hkf
    simp [GetValueAt_eq, hkf]
  · intro h
    simp only at h
    simp [GetValueAt_eq, h]
  · intro e
    rfl
  · simp [HasKeyframes, PrepareDataForKeyframing]
  · simp [HasKeyframes, PrepareDataForKeyframing]

/-- Witness for C9: a field with empty keyframes evaluates to its
persistent value 3. -/
theorem keyframes_authoritative_witness :
    GetValueAt ⟨EffectFieldType.double, Value.num 3, [], true⟩ 5 = Value.num 3 :=
  (keyframes_authoritative
    ⟨EffectFieldType.double, Value.num 3, [], true⟩ 5 0).2.2.1 rfl

/-- C6: the normalized progress is defined to be 0 whenever the two keyframe
times coincide (the division-by-zero guard); consequently a duplicate-time
Linear numeric pair resolves to the before value. -/
theorem progress_duplicate_time_guard (before after : EffectKeyframe) (t : ℚ)
    (h : after.time = before.time) :
    progress before after t = 0 ∧
    (∀ x y, before.interpolation = InterpType.linear →
      before.value = Value.num x → after.value = Value.num y →
      interpPair before after t = Value.num x) := by
  constructor
  · simp [progress, h]
  · intro x y hint hbv hav
    simp [interpPair, hint, lerp, hbv, hav, progress, h]

/-- Witness for C6: two keyframes both at time 5 give progress 0. -/
theorem progress_duplicate_time_guard_witness :
    progress ⟨5, Value.num 1, InterpType.linear, 0, 0, 0, 0⟩
      ⟨5, Value.num 2, InterpType.linear, 0, 0, 0, 0⟩ 3 = 0 :=
  (progress_duplicate_time_guard
    ⟨5, Value.num 1, InterpType.linear, 0, 0, 0, 0⟩
    ⟨5, Value.num 2, InterpType.linear, 0, 0, 0, 0⟩ 3 rfl).1

/-! ### Lemmas about `replaceValueAt` and `insertKeyframe` -/

theorem hasTime_iff {ks : List EffectKeyframe} {t : ℚ} :
    hasTime ks t = true ↔ ∃ k ∈ ks, k.time = t := by
  simp [hasTime]

theorem replaceValueAt_map_time_interp (t : ℚ) (v : Value) :
    ∀ ks : List EffectKeyframe,
      (replaceValueAt t v ks).map (fun k => (k.time, k.interpolation))
        = ks.map (fun k => (k.time, k.interpolation)) := by
  intro ks
  induction ks with
  | nil => rfl
  | cons k ks ih =>
    unfold replaceValueAt
    split_ifs with h
    · simp
    · simp [ih]

theorem replaceValueAt_mem_of_ne {t : ℚ} {v : Value} :
    ∀ {ks : List EffectKeyframe} {k : EffectKeyframe}, k ∈ ks → k.time ≠ t →
      k ∈ replaceValueAt t v ks := by
  intro ks
  induction ks with
  | nil => intro k h _; exact absurd h (List.not_mem_nil k)
  | cons k0 ks0 ih =>
    intro k hmem hne
    unfold replaceValueAt
    rcases List.mem_cons.mp hmem with h | h
    · subst h
      rw [if_neg hne]
      exact List.mem_cons_self _ _
    · split_ifs with h0
      · exact List.mem_cons_of_mem _ h
      · exact List.mem_cons_of_mem _ (ih h hne)

theorem replaceValueAt_value {t : ℚ} {v : Value} :
    ∀ {ks : List EffectKeyframe}, SortedK ks →
      ∀ k ∈ replaceValueAt t v ks, k.time = t → k.value = v := by
  intro ks
  induction ks with
  | nil => intro _ k h; exact absurd h (List.not_mem_nil k)
  | cons k0 ks0 ih =>
    intro hs k hmem ht
    unfold replaceValueAt at hmem
    split_ifs at hmem with h0
    · rcases List.mem_cons.mp hmem with h | h
      · rw [h]
      · exfalso
        have := sortedK_head_lt hs k h
        rw [ht, ← h0] at this
        exact lt_irrefl _ this
    · rcases List.mem_cons.mp hmem with h | h
      · subst h; exact absurd ht h0
      · exact ih (sortedK_tail hs) k h ht

theorem insertKeyframe_length (k : EffectKeyframe) :
    ∀ ks : List EffectKeyframe, (insertKeyframe k ks).length = ks.length + 1 := by
  intro ks
  induction ks with
  | nil => rfl
  | cons x xs ih =>
    unfold insertKeyframe
    split_ifs with h
    · simp
    · simp [ih]

theorem insertKeyframe_mem {x k : EffectKeyframe} :
    ∀ {ks : List EffectKeyframe}, x ∈ insertKeyframe k ks ↔ x = k ∨ x ∈ ks := by
  intro ks
  induction ks with
  | nil => simp [insertKeyframe]
  | cons y ys ih =>
    unfold insertKeyframe
    split_ifs with h
    · simp [List.mem_cons]
    · simp only [List.mem_cons, ih]
      tauto

theorem insertKeyframe_sorted {k : EffectKeyframe} :
    ∀ {ks : List EffectKeyframe}, SortedK ks → (∀ x ∈ ks, x.time ≠ k.time) →
      SortedK (insertKeyframe k ks) := by
  intro ks
  induction ks with
  | nil =>
    intro _ _
    simp [insertKeyframe, SortedK]
  | cons x xs ih =>
    intro hs hne
    unfold insertKeyframe
    split_ifs with h
    · refine List.pairwise_cons.mpr ⟨?_, hs⟩
      intro y hy
      rcases List.mem_cons.mp hy with h1 | h1
      · rw [h1]; exact h
      · exact lt_trans h (sortedK_head_lt hs y h1)
    · have hx : x.time < k.time :=
        lt_of_le_of_ne (not_lt.mp h) (hne x (List.mem_cons_self _ _))
      refine List.pairwise_cons.mpr ⟨?_, ?_⟩
      · intro y hy
        rcases insertKeyframe_mem.mp hy with h1 | h1
        · rw [h1]; exact hx
        · exact sortedK_head_lt hs y h1
      · exact ih (sortedK_tail hs) (fun z hz => hne z (List.mem_cons_of_mem _ hz))

theorem sortedK_iff_map (ks : List EffectKeyframe) :
    SortedK ks ↔ (ks.map (fun k => (k.time, k.interpolation))).Pairwise
      (fun p q => p.1 < q.1) := by
  rw [List.pairwise_map]
  exact Iff.rfl

/-- C2: `set_value_at` overwrites the persistent value when not keyframing;
with an exact-time match it replaces that keyframe's value in place (same
times and interpolation types, no new keyframe); otherwise it inserts a new
Linear keyframe at that time, keeping every old keyframe and preserving
ascending time order. -/
theorem setValueAt_semantics (f : EffectField) (t : ℚ) (v : Value) :
    (f.keyframes = [] →
      (SetValueAt f t v).1.persistent_data = v ∧
      (SetValueAt f t v).1.keyframes = []) ∧
    (hasTime f.keyframes t = true →
      (SetValueAt f t v).1.persistent_data = f.persistent_data ∧
      (SetValueAt f t v).1.keyframes.map (fun k => (k.time, k.interpolation))
        = f.keyframes.map (fun k => (k.time, k.interpolation)) ∧
      (SortedK f.keyframes →
        ∀ k ∈ (SetValueAt f t v).1.keyframes, k.time = t → k.value = v) ∧
      (∀ k ∈ f.keyframes, k.time ≠ t → k ∈ (SetValueAt f t v).1.keyframes)) ∧
    (hasTime f.keyframes t = false → f.keyframes ≠ [] →
      (SetValueAt f t v).1.persistent_data = f.persistent_data ∧
      (SetValueAt f t v).1.keyframes.length = f.keyframes.length + 1 ∧
      newLinearKeyframe t v ∈ (SetValueAt f t v).1.keyframes ∧
      (newLinearKeyframe t v).interpolation = InterpType.linear ∧
      (∀ k ∈ f.keyframes, k ∈ (SetValueAt f t v).1.keyframes) ∧
      (SortedK f.keyframes → SortedK (SetValueAt f t v).1.keyframes)) := by
  refine ⟨?_, ?_, ?_⟩
  · intro h
    simp [SetValueAt, h]
  · intro h
    have hne : ¬ f.keyframes.isEmpty = true := by
      intro hemp
      rw [List.isEmpty_iff] at hemp
      rw [hemp] at h
      simp [hasTime] at h
    simp only [SetValueAt, if_neg hne, if_pos h]
    refine ⟨by trivial, replaceValueAt_map_time_interp t v f.keyframes, ?_, ?_⟩
    · intro hs k hmem ht
      exact replaceValueAt_value hs k hmem ht
    · intro k hmem hkt
      exact replaceValueAt_mem_of_ne hmem hkt
  · intro h hnil
    have hne : ¬ f.keyframes.isEmpty = true := by
      rw [List.isEmpty_iff]
      exact hnil
    have hno : ¬ hasTime f.keyframes t = true := by rw [h]; exact Bool.false_ne_true
    simp only [SetValueAt, if_neg hne, if_neg hno]
    have hfresh : ∀ x ∈ f.keyframes, x.time ≠ (newLinearKeyframe t v).time := by
      intro x hx
      intro hxt
      have : hasTime f.keyframes t = true := hasTime_iff.mpr ⟨x, hx, hxt⟩
      rw [h] at this
      exact Bool.false_ne_true this
    refine ⟨by trivial, insertKeyframe_length _ f.keyframes,
      insertKeyframe_mem.mpr (Or.inl rfl), by trivial, ?_, ?_⟩
    · intro k hk
      exact insertKeyframe_mem.mpr (Or.inr hk)
    · intro hs
      exact insertKeyframe_sorted hs hfresh

/-- Witness for C2: inserting value 9 at the fresh time 5 into a field with
keyframes at times 2 and 7 yields a three-keyframe sequence. -/
theorem setValueAt_semantics_witness :
    (SetValueAt ⟨EffectFieldType.double, Value.num 0,
      [⟨2, Value.num 1, InterpType.linear, 0, 0, 0, 0⟩,
       ⟨7, Value.num 4, InterpType.linear, 0, 0, 0, 0⟩], true⟩ 5
      (Value.num 9)).1.keyframes.length =
      ([⟨2, Value.num 1, InterpType.linear, 0, 0, 0, 0⟩,
        ⟨7, Value.num 4, InterpType.linear, 0, 0, 0, 0⟩] :
        List EffectKeyframe).length + 1 :=
  ((setValueAt_semantics ⟨EffectFieldType.double, Value.num 0,
      [⟨2, Value.num 1, InterpType.linear, 0, 0, 0, 0⟩,
       ⟨7, Value.num 4, InterpType.linear, 0, 0, 0, 0⟩], true⟩ 5
      (Value.num 9)).2.2 (by decide) (by decide)).2.1

theorem setValueAt_preserves_sorted (f : EffectField) (t : ℚ) (v : Value)
    (hs : SortedK f.keyframes) : SortedK (SetValueAt f t v).1.keyframes := by
  by_cases h0 : f.keyframes.isEmpty = true
  · simp only [SetValueAt, if_pos h0]
    exact hs
  · by_cases h1 : hasTime f.keyframes t = true
    · simp only [SetValueAt, if_neg h0, if_pos h1]
      have hmap := replaceValueAt_map_time_interp t v f.keyframes
      exact (sortedK_iff_map _).mpr (hmap ▸ (sortedK_iff_map _).mp hs)
    · simp only [SetValueAt, if_neg h0, if_neg h1]
      refine insertKeyframe_sorted hs ?_
      intro x hx hxt
      exact h1 (hasTime_iff.mpr ⟨x, hx, hxt⟩)

/-- C3: starting from a field satisfying the ordering invariant, any finite
interleaving of `set_value_at` inserts and updates leaves the keyframe
sequence strictly ascending in time, with no two keyframes sharing a
time. -/
theorem ordering_invariant (f : EffectField) (ops : List (ℚ × Value))
    (hs : SortedK f.keyframes) :
    SortedK (applyOps f ops).keyframes ∧
    (applyOps f ops).keyframes.Pairwise (fun a b => a.time ≠ b.time) := by
  have main : SortedK (applyOps f ops).keyframes := by
    induction ops generalizing f with
    | nil => exact hs
    | cons op ops ih =>
      obtain ⟨t, v⟩ := op
      exact ih _ (setValueAt_preserves_sorted f t v hs)
  exact ⟨main, main.imp (fun h => ne_of_lt h)⟩

/-- Witness for C3: three `set_value_at` calls (insert at 2, insert at 1,
update at 2) on an initially empty field leave the sequence sorted with
distinct times. -/
theorem ordering_invariant_witness :
    SortedK (applyOps ⟨EffectFieldType.double, Value.num 0, [], true⟩
      [(2, Value.num 5), (1, Value.num 3), (2, Value.num 7)]).keyframes ∧
    (applyOps ⟨EffectFieldType.double, Value.num 0, [], true⟩
      [(2, Value.num 5), (1, Value.num 3), (2, Value.num 7)]).keyframes.Pairwise
      (fun a b => a.time ≠ b.time) :=
  ordering_invariant ⟨EffectFieldType.double, Value.num 0, [], true⟩
    [(2, Value.num 5), (1, Value.num 3), (2, Value.num 7)]
    (List.Pairwise.nil)

/-! ### Locating the adjacent pair during resolve -/

theorem resolveBetween_pair : ∀ (pre : List EffectKeyframe)
    (k : EffectKeyframe) (rest : List EffectKeyframe)
    {before after : EffectKeyframe} {post2 : List EffectKeyframe} {t : ℚ},
    SortedK (k :: rest) → k :: rest = pre ++ before :: after :: post2 →
    before.time < t → t ≤ after.time →
    resolveBetween k rest t = interpPair before after t := by
  intro pre
  induction pre with
  | nil =>
    intro k rest before after post2 t _ heq h1 h2
    injection heq with hk hrest
    subst hk
    subst hrest
    unfold resolveBetween
    rw [if_pos h2]
  | cons p pre2 ih =>
    intro k rest before after post2 t hs heq h1 h2
    injection heq with hk hrest
    rw [List.append_eq] at hrest
    cases hx : pre2 ++ before :: after :: post2 with
    | nil => exact absurd hx (by simp)
    | cons x rest2 =>
      rw [hrest, hx]
      have hs2 : SortedK (x :: rest2) := by
        rw [hrest, hx] at hs
        exact sortedK_tail hs
      have hxle : x.time ≤ before.time := head_time_le hs2 hx.symm
      unfold resolveBetween
      rw [if_neg (not_le.mpr (lt_of_le_of_lt hxle h1))]
      exact ih x rest2 hs2 hx.symm h1 h2

theorem resolve_pair {pre : List EffectKeyframe} {k before after : EffectKeyframe}
    {rest post2 : List EffectKeyframe} {t : ℚ}
    (hs : SortedK (k :: rest)) (heq : k :: rest = pre ++ before :: after :: post2)
    (h1 : before.time < t) (h2 : t < after.time) :
    resolve k rest t = interpPair before after t := by
  have hk : k.time ≤ before.time := head_time_le hs heq
  have hnle1 : ¬ t ≤ k.time := not_le.mpr (lt_of_le_of_lt hk h1)
  have haftermem : after ∈ k :: rest := by
    rw [heq]
    exact List.mem_append.mpr (Or.inr (List.mem_cons_of_mem _ (List.mem_cons_self _ _)))
  have hlast : after.time ≤ (rest.getLastD k).time := time_le_lastK hs after haftermem
  have hnle2 : ¬ (rest.getLastD k).time ≤ t :=
    not_le.mpr (lt_of_lt_of_le h2 hlast)
  unfold resolve
  rw [if_neg hnle1, if_neg hnle2]
  exact resolveBetween_pair pre k rest hs heq h1 (le_of_lt h2)

theorem GetValueAt_pair {f : EffectField} {pre post2 : List EffectKeyframe}
    {before after : EffectKeyframe} {t : ℚ}
    (hks : f.keyframes = pre ++ before :: after :: post2)
    (hs : SortedK f.keyframes) (h1 : before.time < t) (h2 : t < after.time) :
    GetValueAt f t = interpPair before after t := by
  cases hkf : f.keyframes with
  | nil =>
    rw [hkf] at hks
    exact absurd hks.symm (by simp)
  | cons k rest =>
    rw [hkf] at hks hs
    simp only [GetValueAt_eq, hkf]
    exact resolve_pair hs hks h1 h2

/-- C5: when the query time lies strictly between two adjacent keyframes,
resolve dispatches on the before keyframe's interpolation type — Hold yields
the before value, Linear on numeric values yields the linear blend at the
normalized progress; in particular keyframes (t=0, v=0) and (t=10, v=100)
give value 50 at time 5. -/
theorem interpolation_dispatch (f : EffectField)
    (pre post2 : List EffectKeyframe) (before after : EffectKeyframe) (t : ℚ)
    (hks : f.keyframes = pre ++ before :: after :: post2)
    (hs : SortedK f.keyframes) (h1 : before.time < t) (h2 : t < after.time) :
    (before.interpolation = InterpType.hold → GetValueAt f t = before.value) ∧
    (∀ x y, before.interpolation = InterpType.linear →
      before.value = Value.num x → after.value = Value.num y →
      GetValueAt f t =
        Value.num (x + (y - x) * ((t - before.time) / (after.time - before.time)))) ∧
    GetValueAt
      ⟨EffectFieldType.double, Value.num 0,
        [⟨0, Value.num 0, InterpType.linear, 0, 0, 0, 0⟩,
         ⟨10, Value.num 100, InterpType.linear, 0, 0, 0, 0⟩], true⟩ 5
      = Value.num 50 := by
  have hmain : GetValueAt f t = interpPair before after t :=
    GetValueAt_pair hks hs h1 h2
  have htne : after.time ≠ before.time := ne_of_gt (lt_trans h1 h2)
  refine ⟨?_, ?_,
    by norm_num [GetValueAt_eq, resolve, resolveBetween, interpPair, lerp, progress]⟩
  · intro hint
    rw [hmain]
    simp [interpPair, hint]
  · intro x y hint hbv hav
    rw [hmain]
    simp [interpPair, hint, lerp, hbv, hav, progress, htne]

/-- Witness for C5: a Hold keyframe at time 0 holding 1, followed by a
keyframe at time 10, evaluates to 1 at time 5. -/
theorem interpolation_dispatch_witness :
    GetValueAt
      ⟨EffectFieldType.double, Value.num 0,
        [⟨0, Value.num 1, InterpType.hold, 0, 0, 0, 0⟩,
         ⟨10, Value.num 2, InterpType.linear, 0, 0, 0, 0⟩], true⟩ 5
      = Value.num 1 :=
  (interpolation_dispatch
    ⟨EffectFieldType.double, Value.num 0,
      [⟨0, Value.num 1, InterpType.hold, 0, 0, 0, 0⟩,
       ⟨10, Value.num 2, InterpType.linear, 0, 0, 0, 0⟩], true⟩
    [] [] ⟨0, Value.num 1, InterpType.hold, 0, 0, 0, 0⟩
    ⟨10, Value.num 2, InterpType.linear, 0, 0, 0, 0⟩ 5 rfl
    (by decide) (by decide) (by decide)).1 rfl

/-- C7: when the raw post-handle extent of keyframe `i` and the raw
pre-handle extent of keyframe `i+1` together exceed the time gap between
them, `valid_handle_x` scales both by the same factor, their sum equals the
gap exactly, and neither scaled extent exceeds the gap. -/
theorem handle_consistency (f : EffectField)
    (pre post2 : List EffectKeyframe) (before after : EffectKeyframe)
    (hks : f.keyframes = pre ++ before :: after :: post2)
    (hgap : before.time < after.time)
    (ha : 0 ≤ before.post_handle_x) (hb : 0 ≤ after.pre_handle_x)
    (hover : after.time - before.time < before.post_handle_x + after.pre_handle_x) :
    validHandleX f.keyframes pre.length true
      = before.post_handle_x *
        ((after.time - before.time) / (before.post_handle_x + after.pre_handle_x)) ∧
    validHandleX f.keyframes (pre.length + 1) false
      = after.pre_handle_x *
        ((after.time - before.time) / (before.post_handle_x + after.pre_handle_x)) ∧
    validHandleX f.keyframes pre.length true
        + validHandleX f.keyframes (pre.length + 1) false
      = after.time - before.time ∧
    validHandleX f.keyframes pre.length true ≤ after.time - before.time ∧
    validHandleX f.keyframes (pre.length + 1) false ≤ after.time - before.time := by
  have hg : 0 < after.time - before.time := sub_pos.mpr hgap
  have hc : 0 < before.post_handle_x + after.pre_handle_x := lt_trans hg hover
  have hcne : before.post_handle_x + after.pre_handle_x ≠ 0 := ne_of_gt hc
  have hdiv : 0 ≤ (after.time - before.time) / (before.post_handle_x + after.pre_handle_x) :=
    le_of_lt (div_pos hg hc)
  have hksi : f.keyframes[pre.length]? = some before := by
    rw [hks, List.getElem?_append_right (le_refl pre.length)]
    simp
  have hksi1 : f.keyframes[pre.length + 1]? = some after := by
    rw [hks, List.getElem?_append_right (Nat.le_add_right pre.length 1)]
    simp
  have hpost : validHandleX f.keyframes pre.length true
      = before.post_handle_x *
        ((after.time - before.time) / (before.post_handle_x + after.pre_handle_x)) := by
    unfold validHandleX
    rw [hksi, hksi1]
    simp only [if_true]
    rw [if_pos hover]
  have hpre2 : validHandleX f.keyframes (pre.length + 1) false
      = after.pre_handle_x *
        ((after.time - before.time) / (before.post_handle_x + after.pre_handle_x)) := by
    unfold validHandleX
    rw [hksi1]
    simp only [Nat.succ_ne_zero, if_false, Nat.add_sub_cancel, Bool.false_eq_true]
    rw [hksi]
    dsimp only
    rw [if_pos hover]
  have hsum : validHandleX f.keyframes pre.length true
        + validHandleX f.keyframes (pre.length + 1) false
      = after.time - before.time := by
    rw [hpost, hpre2]
    have hfactor : before.post_handle_x *
          ((after.time - before.time) / (before.post_handle_x + after.pre_handle_x))
        + after.pre_handle_x *
          ((after.time - before.time) / (before.post_handle_x + after.pre_handle_x))
        = ((after.time - before.time) / (before.post_handle_x + after.pre_handle_x))
          * (before.post_handle_x + after.pre_handle_x) := by ring
    rw [hfactor, div_mul_cancel₀ _ hcne]
  refine ⟨hpost, hpre2, hsum, ?_, ?_⟩
  · rw [hpost]
    calc before.post_handle_x *
          ((after.time - before.time) / (before.post_handle_x + after.pre_handle_x))
        ≤ (before.post_handle_x + after.pre_handle_x) *
          ((after.time - before.time) / (before.post_handle_x + after.pre_handle_x)) :=
          mul_le_mul_of_nonneg_right (le_add_of_nonneg_right hb) hdiv
      _ = after.time - before.time := by
          rw [mul_comm]
          exact div_mul_cancel₀ _ hcne
  · rw [hpre2]
    calc after.pre_handle_x *
          ((after.time - before.time) / (before.post_handle_x + after.pre_handle_x))
        ≤ (before.post_handle_x + after.pre_handle_x) *
          ((after.time - before.time) / (before.post_handle_x + after.pre_handle_x)) :=
          mul_le_mul_of_nonneg_right (le_add_of_nonneg_left ha) hdiv
      _ = after.time - before.time := by
          rw [mul_comm]
          exact div_mul_cancel₀ _ hcne

/-- Witness for C7: keyframes at times 0 and 10 with raw post extent 8 and
raw pre extent 6 (combined 14 > 10) have constrained extents summing to the
gap. -/
theorem handle_consistency_witness :
    validHandleX [⟨0, Value.num 0, InterpType.bezier, 0, 0, 8, 0⟩,
        ⟨10, Value.num 100, InterpType.bezier, 6, 0, 0, 0⟩] 0 true
      + validHandleX [⟨0, Value.num 0, InterpType.bezier, 0, 0, 8, 0⟩,
        ⟨10, Value.num 100, InterpType.bezier, 6, 0, 0, 0⟩] 1 false
      = (10 : ℚ) - 0 :=
  (handle_consistency
    ⟨EffectFieldType.double, Value.num 0,
      [⟨0, Value.num 0, InterpType.bezier, 0, 0, 8, 0⟩,
       ⟨10, Value.num 100, InterpType.bezier, 6, 0, 0, 0⟩], true⟩
    [] [] ⟨0, Value.num 0, InterpType.bezier, 0, 0, 8, 0⟩
    ⟨10, Value.num 100, InterpType.bezier, 6, 0, 0, 0⟩ rfl
    (by norm_num) (by norm_num) (by norm_num) (by norm_num)).2.2.1

/-- C10: `SetValueAt` emits the Changed signal on every call, including when
the supplied value equals the value already observable at that time. -/
theorem setValueAt_always_emits_changed (f : EffectField) (t : ℚ) (v : Value) :
    (SetValueAt f t v).2 = true ∧ (SetValueAt f t (GetValueAt f t)).2 = true := by
  constructor <;> (unfold SetValueAt; split_ifs <;> rfl)

end Olive
